import Mathlib

/-!
Verification of the habit-tracker core (`habit_model.py`): the `Habit`
entity, its statistics (streaks, completion rate), and the `HabitManager`
collection with its serialization round trip.

Embedding conventions.

* Dates.  The source stores calendar dates as ISO `YYYY-MM-DD` strings and
  converts through `datetime.date`.  For valid dates the ISO string form is
  an order-preserving bijection with the day number (two strings are equal
  iff the dates are, and lexicographic order on the fixed-width ISO form is
  chronological order), and `(a - b).days` is the difference of day
  numbers.  We therefore embed a date as an `Int` day number; string
  membership, string sorting and date arithmetic in the source transport
  verbatim.
* `today`.  The source calls `date.today()`; the embedding takes the
  current day as an explicit `today : Int` parameter.
* Mutation.  Python methods mutate `self` in place; the embedding returns
  the updated value (and pairs it with the method's return value where the
  source returns one).
* Floats.  `get_completion_rate` divides Python floats; the embedding
  computes in `ℚ`.  At every concrete instance proved below the float
  computation is exact or correctly rounds to the same decimal value
  (`1/1*100`, `3/10*100` and `1/(-1)*100` all round to the rational
  result), so the `ℚ` model is faithful at those points.
* `list.sort()` on `Int`-like keys produces the unique sorted permutation
  (equal keys are indistinguishable), which `List.insertionSort (· ≤ ·)`
  also produces; the two agree as functions on lists of day numbers.
-/

namespace HabitTracker

/-- Source `Habit` dataclass of `habit_model.py` (field for field; dates as day
numbers, see the header comment). -/
structure Habit where
  name : String
  description : String
  created_date : Int
  completion_dates : List Int
  id : String
deriving DecidableEq

/-- Source `Habit.mark_completed`: append the date and re-sort unless already
present (`habit_model.py` lines 22-35). -/
def Habit.mark_completed (h : Habit) (d : Int) : Habit :=
  if d ∈ h.completion_dates then h
  else { h with completion_dates := List.insertionSort (· ≤ ·) (h.completion_dates ++ [d]) }

/-- Source `Habit.is_completed_on_date`: membership test (lines 55-65). -/
def Habit.is_completed_on_date (h : Habit) (d : Int) : Bool :=
  decide (d ∈ h.completion_dates)

/-- Source `Habit.is_completed_today`: membership test for today (lines 51-53). -/
def Habit.is_completed_today (h : Habit) (today : Int) : Bool :=
  decide (today ∈ h.completion_dates)

/-- The `while True` backward walk of `get_current_streak` (lines 92-99):
starting at day `d`, count consecutive days present in `cs`, stopping at
the first absent day.  The source loop terminates because the completion
list is finite; here the same bound appears as explicit fuel, and
`streakWalk_lt_length` below proves the fuel `cs.length` is never
exhausted when the walk starts below a member of `cs`. -/
def streakWalk (cs : List Int) : Int → Nat → Nat
  | _, 0 => 0
  | d, fuel + 1 => if d ∈ cs then 1 + streakWalk cs (d - 1) fuel else 0

/-- Source `Habit.get_current_streak` (lines 67-101): 0 on an empty list; if
today is completed, 1 plus the backward walk from yesterday; else if
yesterday is completed, 1 plus the backward walk from two days ago; else
0. -/
def Habit.get_current_streak (h : Habit) (today : Int) : Nat :=
  if h.completion_dates = [] then 0
  else if today ∈ h.completion_dates then
    1 + streakWalk h.completion_dates (today - 1) h.completion_dates.length
  else if today - 1 ∈ h.completion_dates then
    1 + streakWalk h.completion_dates (today - 2) h.completion_dates.length
  else 0

/-- The `for i in range(1, len(sorted_dates))` scan of `get_longest_streak`
(lines 118-124): `prev` is `sorted_dates[i-1]`, `cur` the running streak,
`maxS` the maximum so far. -/
def longestAux : List Int → Int → Nat → Nat → Nat
  | [], _, _, maxS => maxS
  | d :: rest, prev, cur, maxS =>
    if d - prev = 1 then longestAux rest d (cur + 1) (Nat.max maxS (cur + 1))
    else longestAux rest d 1 maxS

/-- Source `Habit.get_longest_streak` (lines 103-126): 0 on an empty list,
otherwise the scan over the sorted completion dates starting with
`max_streak = current_streak = 1`. -/
def Habit.get_longest_streak (h : Habit) : Nat :=
  if h.completion_dates = [] then 0
  else
    match List.insertionSort (· ≤ ·) h.completion_dates with
    | [] => 0
    | d :: rest => longestAux rest d 1 1

/-- Source `Habit.get_total_completions` (lines 128-130). -/
def Habit.get_total_completions (h : Habit) : Nat :=
  h.completion_dates.length

/-- Source `Habit.get_completion_rate` (lines 132-145): completions divided by
`(today - created).days + 1`, times 100, with the source's
`days_since_creation == 0` guard. -/
def Habit.get_completion_rate (h : Habit) (today : Int) : ℚ :=
  if today - h.created_date + 1 = 0 then 0
  else ((h.get_total_completions : ℚ) / ((today - h.created_date + 1 : Int) : ℚ)) * 100

/-- The dictionary produced by `Habit.to_dict` (`asdict`, lines 147-149):
one entry per dataclass field. -/
structure HabitDict where
  name : String
  description : String
  created_date : Int
  completion_dates : List Int
  id : String
deriving DecidableEq

/-- Source `Habit.to_dict` (lines 147-149). -/
def Habit.to_dict (h : Habit) : HabitDict :=
  ⟨h.name, h.description, h.created_date, h.completion_dates, h.id⟩

/-- Source `Habit.from_dict` (lines 151-162): `Habit(**data)`. -/
def Habit.from_dict (d : HabitDict) : Habit :=
  ⟨d.name, d.description, d.created_date, d.completion_dates, d.id⟩

/-- The `metadata` block written by `HabitManager.to_dict` (lines
248-251). -/
structure ManagerMetadata where
  last_updated : String
  total_habits : Nat
deriving DecidableEq

/-- The dictionary shape consumed by `HabitManager.from_dict`: the
`habits` key may be absent (`if "habits" in data`, line 262), as may the
`metadata` block, which `from_dict` never reads. -/
structure ManagerDict where
  habits : Option (List HabitDict)
  metadata : Option ManagerMetadata
deriving DecidableEq

/-- Source `HabitManager` (lines 165-170): an ordered list of habits. -/
structure HabitManager where
  habits : List Habit
deriving DecidableEq

/-- Source `HabitManager.add_habit` (lines 172-185): build a habit with today's
date, empty completions and a freshly generated uuid (`fresh_id` stands
for the `uuid.uuid4()` draw), append it, return it. -/
def HabitManager.add_habit (m : HabitManager) (name description : String)
    (today : Int) (fresh_id : String) : Habit × HabitManager :=
  let habit : Habit :=
    { name := name, description := description, created_date := today,
      completion_dates := [], id := fresh_id }
  (habit, { habits := m.habits ++ [habit] })

/-- The `for i, habit in enumerate(...)`/`pop(i)` loop of
`HabitManager.remove_habit` (lines 197-201): drop the first habit whose id
matches and report whether one did. -/
def removeFirst : List Habit → String → Bool × List Habit
  | [], _ => (false, [])
  | h :: t, hid =>
    if h.id = hid then (true, t)
    else
      let r := removeFirst t hid
      (r.1, h :: r.2)

/-- Source `HabitManager.remove_habit` (lines 187-201). -/
def HabitManager.remove_habit (m : HabitManager) (hid : String) : Bool × HabitManager :=
  let r := removeFirst m.habits hid
  (r.1, { habits := r.2 })

/-- Source `HabitManager.get_habit` (lines 203-216): first habit with matching
id, if any. -/
def HabitManager.get_habit (m : HabitManager) (hid : String) : Option Habit :=
  m.habits.find? (fun h => h.id == hid)

/-- Source `HabitManager.update_habit` (lines 218-238) acting on the habit list:
`get_habit` returns the first match, whose name/description are updated in
place when the corresponding argument is not `None`. -/
def updateFirst : List Habit → String → Option String → Option String → Bool × List Habit
  | [], _, _, _ => (false, [])
  | h :: t, hid, newName, newDescription =>
    if h.id = hid then
      (true, { h with name := newName.getD h.name,
                      description := newDescription.getD h.description } :: t)
    else
      let r := updateFirst t hid newName newDescription
      (r.1, h :: r.2)

/-- Source `HabitManager.update_habit` (lines 218-238). -/
def HabitManager.update_habit (m : HabitManager) (hid : String)
    (newName newDescription : Option String) : Bool × HabitManager :=
  let r := updateFirst m.habits hid newName newDescription
  (r.1, { habits := r.2 })

/-- Source `HabitManager.to_dict` (lines 244-252): habit dictionaries in order
plus a metadata block (`now` stands for `datetime.now().isoformat()`). -/
def HabitManager.to_dict (m : HabitManager) (now : String) : ManagerDict :=
  { habits := some (m.habits.map Habit.to_dict),
    metadata := some { last_updated := now, total_habits := m.habits.length } }

/-- Source `HabitManager.from_dict` (lines 254-264): reset `habits` to `[]`, then
load every entry of the `habits` key when present. -/
def HabitManager.from_dict (_m : HabitManager) (data : ManagerDict) : HabitManager :=
  match data.habits with
  | none => { habits := [] }
  | some hs => { habits := hs.map Habit.from_dict }

/-- Source `id`s of the managed habits, in order. -/
def HabitManager.ids (m : HabitManager) : List String :=
  m.habits.map Habit.id

/-- The manager invariant of the spec: pairwise-distinct habit ids. -/
def HabitManager.UniqueIds (m : HabitManager) : Prop :=
  m.ids.Nodup

instance (m : HabitManager) : Decidable m.UniqueIds :=
  inferInstanceAs (Decidable m.ids.Nodup)

/-- From the spec's words: the length of the initial run of the list in
which each date is exactly one day after its predecessor. -/
def headRun : List Int → Nat
  | [] => 0
  | [_] => 1
  | a :: b :: t => if b - a = 1 then 1 + headRun (b :: t) else 1

/-- From the spec's words: "the maximum length of a run of dates in the
sorted completion set where each date is exactly one day after its
predecessor" — the maximum, over every position of the list, of the length
of the consecutive run starting there; 0 for the empty list. -/
def maxRun : List Int → Nat
  | [] => 0
  | a :: t => Nat.max (headRun (a :: t)) (maxRun t)

/-- Source `is_completed_on_date` with its state effect made explicit: the source
body (lines 55-65) is a single `return` with no assignment to `self`, so
the post-state is the receiver. -/
def Habit.is_completed_on_date_run (h : Habit) (d : Int) : Bool × Habit :=
  (h.is_completed_on_date d, h)

/-- Source `is_completed_today` with its state effect made explicit (lines 51-53:
no assignment to `self`). -/
def Habit.is_completed_today_run (h : Habit) (today : Int) : Bool × Habit :=
  (h.is_completed_today today, h)

/-- Source `get_current_streak` with its state effect made explicit (lines
67-101: the method reads `self.completion_dates` and mutates only its
locals `streak` and `current_date`). -/
def Habit.get_current_streak_run (h : Habit) (today : Int) : Nat × Habit :=
  (h.get_current_streak today, h)

/-- Source `get_longest_streak` with its state effect made explicit (lines
103-126: the method sorts into the fresh local `sorted_dates` — note
`sorted(...)` copies — and mutates only locals). -/
def Habit.get_longest_streak_run (h : Habit) : Nat × Habit :=
  (h.get_longest_streak, h)

/-- Source `get_total_completions` with its state effect made explicit (lines
128-130: a single `len`). -/
def Habit.get_total_completions_run (h : Habit) : Nat × Habit :=
  (h.get_total_completions, h)

/-- Source `get_completion_rate` with its state effect made explicit (lines
132-145: reads only; no assignment to `self`). -/
def Habit.get_completion_rate_run (h : Habit) (today : Int) : ℚ × Habit :=
  (h.get_completion_rate today, h)

theorem streakWalk_le (cs : List Int) (d : Int) (fuel : Nat) :
    streakWalk cs d fuel ≤ fuel := by
  induction fuel generalizing d with
  | zero => simp [streakWalk]
  | succ f ih =>
    simp only [streakWalk]
    split
    · have := ih (d - 1); omega
    · omega

theorem streakWalk_mem (cs : List Int) (d : Int) (fuel : Nat) :
    ∀ j : Nat, j < streakWalk cs d fuel → d - j ∈ cs := by
  induction fuel generalizing d with
  | zero => intro j hj; simp [streakWalk] at hj
  | succ f ih =>
    intro j hj
    simp only [streakWalk] at hj
    by_cases hd : d ∈ cs
    · rw [if_pos hd] at hj
      cases j with
      | zero => simpa using hd
      | succ k =>
        have hk : k < streakWalk cs (d - 1) f := by omega
        have hmem := ih (d - 1) k hk
        have heq : d - (k + 1 : Nat) = d - 1 - k := by push_cast; ring
        rwa [heq]
    · rw [if_neg hd] at hj; omega

theorem streakWalk_stop (cs : List Int) (d : Int) (fuel : Nat)
    (h : streakWalk cs d fuel < fuel) :
    d - (streakWalk cs d fuel : Int) ∉ cs := by
  induction fuel generalizing d with
  | zero => omega
  | succ f ih =>
    by_cases hd : d ∈ cs
    · simp only [streakWalk, if_pos hd] at h ⊢
      have h2 : streakWalk cs (d - 1) f < f := by omega
      have h3 := ih (d - 1) h2
      have heq : d - ((1 + streakWalk cs (d - 1) f : Nat) : Int) =
          d - 1 - (streakWalk cs (d - 1) f : Int) := by push_cast; ring
      rwa [heq]
    · simp only [streakWalk, if_neg hd]
      simpa using hd

theorem streakWalk_lt_length (cs : List Int) (d : Int) (h : d + 1 ∈ cs) :
    streakWalk cs d cs.length < cs.length := by
  have hle := streakWalk_le cs d cs.length
  rcases Nat.lt_or_ge (streakWalk cs d cs.length) cs.length with hlt | hge
  · exact hlt
  exfalso
  have heq : streakWalk cs d cs.length = cs.length := le_antisymm hle hge
  set L := cs.length with hL
  have hmem : ∀ j : Nat, j < L → d - j ∈ cs := by
    intro j hj
    exact streakWalk_mem cs d L j (by omega)
  have hsub : (Finset.range (L + 1)).image (fun j : Nat => d + 1 - j) ⊆ cs.toFinset := by
    intro x hx
    simp only [Finset.mem_image, Finset.mem_range] at hx
    obtain ⟨j, hj, rfl⟩ := hx
    rw [List.mem_toFinset]
    cases j with
    | zero => simpa using h
    | succ k =>
      have hk := hmem k (by omega)
      have heq2 : d + 1 - ((k + 1 : Nat) : Int) = d - k := by push_cast; ring
      rwa [heq2]
  have hcard : ((Finset.range (L + 1)).image (fun j : Nat => d + 1 - j)).card = L + 1 := by
    rw [Finset.card_image_of_injOn, Finset.card_range]
    intro a _ b _ hab
    simp only at hab
    omega
  have h1 : L + 1 ≤ cs.toFinset.card := by
    calc L + 1 = _ := hcard.symm
    _ ≤ cs.toFinset.card := Finset.card_le_card hsub
  have h2 : cs.toFinset.card ≤ L := List.toFinset_card_le cs
  omega



/-- When today is completed, the current streak is positive, every one of
the `streak` many days ending at today is completed, and the day before
that block is not: the streak is 1 plus the backward walk from today. -/
theorem current_streak_char_of_today (h : Habit) (today : Int)
    (htoday : today ∈ h.completion_dates) :
    0 < h.get_current_streak today ∧
    (∀ j : Nat, j < h.get_current_streak today → today - j ∈ h.completion_dates) ∧
    today - (h.get_current_streak today : Int) ∉ h.completion_dates := by
  have hne : h.completion_dates ≠ [] := List.ne_nil_of_mem htoday
  have hget : h.get_current_streak today =
      1 + streakWalk h.completion_dates (today - 1) h.completion_dates.length := by
    unfold Habit.get_current_streak
    rw [if_neg hne, if_pos htoday]
  set n := streakWalk h.completion_dates (today - 1) h.completion_dates.length with hn
  have hlt : n < h.completion_dates.length :=
    streakWalk_lt_length h.completion_dates (today - 1)
      (by rw [show today - 1 + 1 = today by ring]; exact htoday)
  refine ⟨by omega, ?_, ?_⟩
  · intro j hj
    rw [hget] at hj
    cases j with
    | zero => simpa using htoday
    | succ k =>
      have hk := streakWalk_mem h.completion_dates (today - 1) h.completion_dates.length k (by omega)
      have heq : today - ((k + 1 : Nat) : Int) = today - 1 - k := by push_cast; ring
      rwa [heq]
  · rw [hget]
    have hstop := streakWalk_stop h.completion_dates (today - 1) h.completion_dates.length hlt
    have heq : today - ((1 + n : Nat) : Int) = today - 1 - (n : Int) := by push_cast; ring
    rwa [heq]

/-- When today is absent but yesterday is completed, the streak is anchored
at yesterday: it is positive, the `streak` many days ending at yesterday
are all completed, and the day before that block is not. -/
theorem current_streak_char_of_yesterday (h : Habit) (today : Int)
    (htoday : today ∉ h.completion_dates) (hyest : today - 1 ∈ h.completion_dates) :
    0 < h.get_current_streak today ∧
    (∀ j : Nat, j < h.get_current_streak today → today - 1 - j ∈ h.completion_dates) ∧
    today - 1 - (h.get_current_streak today : Int) ∉ h.completion_dates := by
  have hne : h.completion_dates ≠ [] := List.ne_nil_of_mem hyest
  have hget : h.get_current_streak today =
      1 + streakWalk h.completion_dates (today - 2) h.completion_dates.length := by
    unfold Habit.get_current_streak
    rw [if_neg hne, if_neg htoday, if_pos hyest]
  set n := streakWalk h.completion_dates (today - 2) h.completion_dates.length with hn
  have hlt : n < h.completion_dates.length :=
    streakWalk_lt_length h.completion_dates (today - 2)
      (by rw [show today - 2 + 1 = today - 1 by ring]; exact hyest)
  refine ⟨by omega, ?_, ?_⟩
  · intro j hj
    rw [hget] at hj
    cases j with
    | zero => simpa using hyest
    | succ k =>
      have hk := streakWalk_mem h.completion_dates (today - 2) h.completion_dates.length k (by omega)
      have heq : today - 1 - ((k + 1 : Nat) : Int) = today - 2 - k := by push_cast; ring
      rwa [heq]
  · rw [hget]
    have hstop := streakWalk_stop h.completion_dates (today - 2) h.completion_dates.length hlt
    have heq : today - 1 - ((1 + n : Nat) : Int) = today - 2 - (n : Int) := by push_cast; ring
    rwa [heq]

/-- When neither today nor yesterday is completed the current streak is
zero. -/
theorem current_streak_eq_zero (h : Habit) (today : Int)
    (htoday : today ∉ h.completion_dates) (hyest : today - 1 ∉ h.completion_dates) :
    h.get_current_streak today = 0 := by
  unfold Habit.get_current_streak
  by_cases hne : h.completion_dates = []
  · rw [if_pos hne]
  · rw [if_neg hne, if_neg htoday, if_neg hyest]

/-- C1.  `get_current_streak` follows the grace rule.  If today is
completed, the result counts today plus the consecutive completed days
walking backward from today (every counted day is completed and the day
past the count is not).  If today is absent but yesterday is completed,
the same count is anchored at yesterday.  If neither is completed the
result is 0.  In particular a habit whose only completion is two days ago
scores 0, and one whose only completion is yesterday scores 1. -/
theorem claim1 (h : Habit) (today : Int) :
    (today ∈ h.completion_dates →
      0 < h.get_current_streak today ∧
      (∀ j : Nat, j < h.get_current_streak today → today - j ∈ h.completion_dates) ∧
      today - (h.get_current_streak today : Int) ∉ h.completion_dates) ∧
    (today ∉ h.completion_dates → today - 1 ∈ h.completion_dates →
      0 < h.get_current_streak today ∧
      (∀ j : Nat, j < h.get_current_streak today → today - 1 - j ∈ h.completion_dates) ∧
      today - 1 - (h.get_current_streak today : Int) ∉ h.completion_dates) ∧
    (today ∉ h.completion_dates → today - 1 ∉ h.completion_dates →
      h.get_current_streak today = 0) ∧
    (Habit.mk h.name h.description h.created_date [today - 2] h.id).get_current_streak today = 0 ∧
    (Habit.mk h.name h.description h.created_date [today - 1] h.id).get_current_streak today = 1 := by
  refine ⟨current_streak_char_of_today h today,
    current_streak_char_of_yesterday h today, current_streak_eq_zero h today, ?_, ?_⟩
  · unfold Habit.get_current_streak
    have h1 : ¬([today - 2] = ([] : List Int)) := by simp
    have h2 : today ∉ [today - 2] := by intro hc; simp at hc; omega
    have h3 : ¬(today - 1 ∈ [today - 2]) := by simp
    simp only at h2 h3 ⊢
    rw [if_neg h1, if_neg h2, if_neg h3]
  · unfold Habit.get_current_streak
    have h1 : ¬([today - 1] = ([] : List Int)) := by simp
    have h2 : today ∉ [today - 1] := by intro hc; simp at hc; omega
    have h3 : today - 1 ∈ [today - 1] := by simp
    simp only at h2 h3 ⊢
    rw [if_neg h1, if_neg h2, if_pos h3]
    have h4 : today - 2 ∉ [today - 1] := by simp
    simp [streakWalk, h4]

/-- C1 witness -/
theorem claim1_witness :
    (5 : Int) - ((Habit.mk "w" "" 0 [(5 : Int)] "i").get_current_streak 5 : Int) ∉
      [(5 : Int)] :=
  ((claim1 (Habit.mk "w" "" 0 [(5 : Int)] "i") 5).1 (by decide)).2.2


theorem headRun_pos (a : Int) (t : List Int) : 1 ≤ headRun (a :: t) := by
  cases t with
  | nil => simp [headRun]
  | cons b t2 =>
    simp only [headRun]
    split <;> omega

theorem longestAux_eq (rest : List Int) : ∀ prev : Int, ∀ cur maxS : Nat,
    1 ≤ cur → 1 ≤ maxS → cur ≤ maxS →
    longestAux rest prev cur maxS =
      Nat.max maxS (Nat.max (cur - 1 + headRun (prev :: rest)) (maxRun rest)) := by
  induction rest with
  | nil =>
    intro prev cur maxS h1 h2 h3
    simp only [longestAux, headRun, maxRun]
    simp only [Nat.max_def]
    split_ifs <;> omega
  | cons d t ih =>
    intro prev cur maxS h1 h2 h3
    simp only [longestAux]
    by_cases hd : d - prev = 1
    · rw [if_pos hd]
      rw [ih d (cur + 1) (Nat.max maxS (cur + 1)) (by omega)
        (by simp only [Nat.max_def]; split_ifs <;> omega)
        (by simp only [Nat.max_def]; split_ifs <;> omega)]
      have hH := headRun_pos d t
      simp only [headRun, maxRun, if_pos hd]
      simp only [Nat.max_def]
      split_ifs <;> omega
    · rw [if_neg hd]
      rw [ih d 1 maxS (by omega) h2 h2]
      have hH := headRun_pos d t
      simp only [headRun, maxRun, if_neg hd]
      simp only [Nat.max_def]
      split_ifs <;> omega

/-- The scan of `get_longest_streak` computes exactly the maximum
consecutive-run length of the sorted completion list. -/
theorem get_longest_streak_eq_maxRun (h : Habit) :
    h.get_longest_streak = maxRun (List.insertionSort (· ≤ ·) h.completion_dates) := by
  unfold Habit.get_longest_streak
  by_cases hne : h.completion_dates = []
  · rw [if_pos hne, hne]
    simp [List.insertionSort, maxRun]
  · rw [if_neg hne]
    have hlen : (List.insertionSort (· ≤ ·) h.completion_dates).length =
        h.completion_dates.length := List.length_insertionSort _ _
    cases hs : List.insertionSort (· ≤ ·) h.completion_dates with
    | nil =>
      exfalso
      apply hne
      have h0 := hlen
      rw [hs] at h0
      exact List.length_eq_zero.mp h0.symm
    | cons a rest =>
      change longestAux rest a 1 1 = maxRun (a :: rest)
      rw [longestAux_eq rest a 1 1 (by omega) (by omega) (by omega)]
      have hH := headRun_pos a rest
      simp only [maxRun]
      simp only [Nat.max_def]
      split_ifs <;> omega

/-- C2.  `get_longest_streak` equals the maximum length of a consecutive
run in the sorted completion list (the running count resets to 1 on any
other gap), is 0 for an empty completion set, and for completions on the
five days ending today both streak statistics equal 5. -/
theorem claim2 (h : Habit) (today : Int) :
    h.get_longest_streak = maxRun (List.insertionSort (· ≤ ·) h.completion_dates) ∧
    (h.completion_dates = [] → h.get_longest_streak = 0) ∧
    (Habit.mk h.name h.description h.created_date
      [today - 4, today - 3, today - 2, today - 1, today] h.id).get_current_streak today = 5 ∧
    (Habit.mk h.name h.description h.created_date
      [today - 4, today - 3, today - 2, today - 1, today] h.id).get_longest_streak = 5 := by
  refine ⟨get_longest_streak_eq_maxRun h, ?_, ?_, ?_⟩
  · intro he
    unfold Habit.get_longest_streak
    rw [if_pos he]
  · set hb : Habit := Habit.mk h.name h.description h.created_date
      [today - 4, today - 3, today - 2, today - 1, today] h.id with hhb
    have hcs : hb.completion_dates = [today - 4, today - 3, today - 2, today - 1, today] := rfl
    have htoday : today ∈ hb.completion_dates := by rw [hcs]; simp
    obtain ⟨hpos, hmem, hstop⟩ := current_streak_char_of_today hb today htoday
    set r := hb.get_current_streak today with hr
    have hle : r ≤ 5 := by
      by_contra hgt
      push_neg at hgt
      have h5 := hmem 5 hgt
      push_cast at h5
      simp only [List.mem_cons, List.mem_singleton, List.not_mem_nil, or_false] at h5
      rcases h5 with h5 | h5 | h5 | h5 | h5 <;> omega
    have hge : 5 ≤ r := by
      by_contra hlt
      push_neg at hlt
      apply hstop
      rw [hcs]
      simp only [List.mem_cons, List.mem_singleton, List.not_mem_nil]
      omega
    omega
  · set l : List Int := [today - 4, today - 3, today - 2, today - 1, today] with hl
    have hsorted : List.Sorted (· ≤ ·) l := by
      rw [hl]
      norm_num [List.sorted_cons]
      omega
    have heq : (Habit.mk h.name h.description h.created_date l h.id).get_longest_streak =
        maxRun (List.insertionSort (· ≤ ·) l) :=
      get_longest_streak_eq_maxRun _
    have hr1 : headRun [today] = 1 := rfl
    have hr2 : headRun [today - 1, today] = 2 := by
      simp only [headRun]
      split_ifs <;> omega
    have hr3 : headRun [today - 2, today - 1, today] = 3 := by
      simp only [headRun]
      split_ifs <;> omega
    have hr4 : headRun [today - 3, today - 2, today - 1, today] = 4 := by
      simp only [headRun]
      split_ifs <;> omega
    have hr5 : headRun [today - 4, today - 3, today - 2, today - 1, today] = 5 := by
      simp only [headRun]
      split_ifs <;> omega
    rw [heq, List.Sorted.insertionSort_eq hsorted]
    simp only [hl, maxRun, hr1, hr2, hr3, hr4, hr5]
    decide


/-- C3.  The spec requires `completion_rate` to treat a corrupted
`created_date` in the future as rate 0.  The code's guard only catches a
denominator of exactly 0 (`created_date = today + 1`); for a habit created
two days after today with one completion the denominator is -1 and the
code returns -100, not 0 — contradicting both the spec and the method's
own docstring range "0-100". -/
theorem claim3 (today : Int) :
    (Habit.mk "h" "" (today + 2) [today] "x").get_completion_rate today = -100 ∧
    (Habit.mk "h" "" (today + 2) [today] "x").get_completion_rate today ≠ 0 ∧
    (Habit.mk "h" "" (today + 1) [today] "x").get_completion_rate today = 0 := by
  unfold Habit.get_completion_rate Habit.get_total_completions
  norm_num

/-- C4.  For a habit created on or before today, `get_completion_rate`
equals total completions divided by the inclusive day count
`(today - created_date) + 1`, times 100; a habit created today with one
completion today rates 100, and one created 9 days ago with 3 completions
rates 30. -/
theorem claim4 (h : Habit) (today : Int) (hc : h.created_date ≤ today) :
    h.get_completion_rate today =
      ((h.get_total_completions : ℚ) / ((today - h.created_date + 1 : Int) : ℚ)) * 100 ∧
    (Habit.mk h.name h.description today [today] h.id).get_completion_rate today = 100 ∧
    (Habit.mk h.name h.description (today - 9) [today, today - 1, today - 2]
      h.id).get_completion_rate today = 30 := by
  refine ⟨?_, ?_, ?_⟩
  · unfold Habit.get_completion_rate
    rw [if_neg (by omega : ¬(today - h.created_date + 1 = 0))]
  · unfold Habit.get_completion_rate Habit.get_total_completions
    norm_num
  · unfold Habit.get_completion_rate Habit.get_total_completions
    rw [if_neg (by omega : ¬(today - (today - 9) + 1 = 0))]
    rw [show today - (today - 9) + 1 = (10 : Int) by ring]
    norm_num

/-- C4 witness: a habit created today with one completion today rates
exactly 100. -/
theorem claim4_witness :
    (Habit.mk "w" "" 0 [(0 : Int)] "i").get_completion_rate 0 = 100 :=
  (claim4 (Habit.mk "w" "" 0 [(0 : Int)] "i") 0 (by decide)).2.1


/-- A habit survives the dictionary round trip field for field. -/
theorem from_dict_to_dict (h : Habit) : Habit.from_dict h.to_dict = h := rfl

/-- C5.  Deserializing the serialization of any non-empty manager yields
an equal manager (same habits in the same order, each field identical),
whatever manager previously held the receiving state and whatever
timestamp the metadata records. -/
theorem claim5 (m m2 : HabitManager) (now : String) (hne : m.habits ≠ []) :
    HabitManager.from_dict m2 (m.to_dict now) = m := by
  unfold HabitManager.to_dict HabitManager.from_dict
  have hmap : ∀ l : List Habit, (l.map Habit.to_dict).map Habit.from_dict = l := by
    intro l
    induction l with
    | nil => rfl
    | cons a t ih => simp only [List.map_cons, ih, from_dict_to_dict]
  cases m with
  | mk habits => simp only [hmap]

/-- C5 witness: a one-habit manager round-trips into an empty receiver. -/
theorem claim5_witness :
    HabitManager.from_dict ⟨[]⟩
      ((HabitManager.mk [Habit.mk "n" "d" 0 [1, 2] "a"]).to_dict "t") =
      HabitManager.mk [Habit.mk "n" "d" 0 [1, 2] "a"] :=
  claim5 (HabitManager.mk [Habit.mk "n" "d" 0 [1, 2] "a"]) ⟨[]⟩ "t" (by decide)

/-- After `mark_completed d`, `d` is in the completion list. -/
theorem mem_mark_completed (h : Habit) (d : Int) :
    d ∈ (h.mark_completed d).completion_dates := by
  unfold Habit.mark_completed
  by_cases hd : d ∈ h.completion_dates
  · rwa [if_pos hd]
  · rw [if_neg hd]
    have hperm := List.perm_insertionSort (· ≤ ·) (h.completion_dates ++ [d])
    rw [hperm.mem_iff]
    simp

/-- C6.  `mark_completed d` makes `is_completed_on_date d` true, is
idempotent, and keeps the completion list strictly sorted (hence
duplicate-free) whenever it was strictly sorted before. -/
theorem claim6 (h : Habit) (d : Int) (hs : List.Sorted (· < ·) h.completion_dates) :
    (h.mark_completed d).is_completed_on_date d = true ∧
    (h.mark_completed d).mark_completed d = h.mark_completed d ∧
    List.Sorted (· < ·) (h.mark_completed d).completion_dates ∧
    (h.mark_completed d).completion_dates.Nodup := by
  have hmem := mem_mark_completed h d
  have hsorted : List.Sorted (· < ·) (h.mark_completed d).completion_dates := by
    unfold Habit.mark_completed
    by_cases hd : d ∈ h.completion_dates
    · rwa [if_pos hd]
    · rw [if_neg hd]
      have hle : List.Sorted (· ≤ ·)
          (List.insertionSort (· ≤ ·) (h.completion_dates ++ [d])) :=
        List.sorted_insertionSort (· ≤ ·) (h.completion_dates ++ [d])
      have hnd0 : (h.completion_dates ++ [d]).Nodup := by
        rw [List.nodup_append]
        exact ⟨hs.nodup, List.nodup_singleton d, by simpa using hd⟩
      have hnd : (List.insertionSort (· ≤ ·) (h.completion_dates ++ [d])).Nodup :=
        (List.perm_insertionSort (· ≤ ·) (h.completion_dates ++ [d])).nodup_iff.mpr hnd0
      exact hle.lt_of_le hnd
  refine ⟨?_, ?_, hsorted, hsorted.nodup⟩
  · simp [Habit.is_completed_on_date, hmem]
  · set g := h.mark_completed d with hg
    show g.mark_completed d = g
    unfold Habit.mark_completed
    rw [if_pos hmem]

/-- C6 witness: marking day 2 on a habit with sorted completions `[1, 3]`
keeps the list strictly sorted. -/
theorem claim6_witness :
    List.Sorted (· < ·) ((Habit.mk "w" "" 0 [1, 3] "i").mark_completed 2).completion_dates :=
  (claim6 (Habit.mk "w" "" 0 [1, 3] "i") 2 (by decide)).2.2.1


/-- When no habit matches, the removal loop reports false and returns the
list unchanged. -/
theorem removeFirst_not_found (l : List Habit) (hid : String)
    (h : ∀ x ∈ l, x.id ≠ hid) : removeFirst l hid = (false, l) := by
  induction l with
  | nil => rfl
  | cons a t ih =>
    unfold removeFirst
    rw [if_neg (h a (by simp))]
    rw [ih (fun x hx => h x (by simp [hx]))]

/-- When some habit matches, the removal loop reports true and removes
exactly the first match. -/
theorem removeFirst_found (l : List Habit) (hid : String)
    (h : ∃ x ∈ l, x.id = hid) :
    (removeFirst l hid).1 = true ∧
    ∃ pre x post, l = pre ++ x :: post ∧ x.id = hid ∧
      (∀ y ∈ pre, y.id ≠ hid) ∧ (removeFirst l hid).2 = pre ++ post := by
  induction l with
  | nil => simp at h
  | cons a t ih =>
    by_cases ha : a.id = hid
    · refine ⟨by simp [removeFirst, ha], [], a, t, rfl, ha, by simp, ?_⟩
      simp [removeFirst, ha]
    · obtain ⟨x, hx, hxid⟩ := h
      have hxt : x ∈ t := by
        rcases List.mem_cons.mp hx with rfl | hxt
        · exact absurd hxid ha
        · exact hxt
      obtain ⟨h1, pre, x2, post, heq, hid2, hpre, hsnd⟩ := ih ⟨x, hxt, hxid⟩
      refine ⟨?_, a :: pre, x2, post, by rw [List.cons_append, heq], hid2, ?_, ?_⟩
      · simpa [removeFirst, ha] using h1
      · intro y hy
        rcases List.mem_cons.mp hy with rfl | hyp
        · exact ha
        · exact hpre y hyp
      · simp only [removeFirst, if_neg ha, List.cons_append]
        rw [hsnd]

/-- C7.  `remove_habit` on an id not present returns false and leaves the
manager unchanged; on an id that is present it returns true and removes
exactly the first habit carrying that id (all habits before it have other
ids, everything else is kept in order). -/
theorem claim7 (m : HabitManager) (hid : String) :
    ((∀ x ∈ m.habits, x.id ≠ hid) →
      (m.remove_habit hid).1 = false ∧ (m.remove_habit hid).2 = m) ∧
    ((∃ x ∈ m.habits, x.id = hid) →
      (m.remove_habit hid).1 = true ∧
      ∃ pre x post, m.habits = pre ++ x :: post ∧ x.id = hid ∧
        (∀ y ∈ pre, y.id ≠ hid) ∧ (m.remove_habit hid).2.habits = pre ++ post) := by
  constructor
  · intro hnone
    have := removeFirst_not_found m.habits hid hnone
    unfold HabitManager.remove_habit
    rw [this]
    exact ⟨rfl, rfl⟩
  · intro hsome
    obtain ⟨h1, pre, x, post, heq, hxid, hpre, hsnd⟩ := removeFirst_found m.habits hid hsome
    exact ⟨h1, pre, x, post, heq, hxid, hpre, hsnd⟩

/-- C7 witness: removing an unknown id from a one-habit manager returns
false and changes nothing. -/
theorem claim7_witness :
    ((HabitManager.mk [Habit.mk "n" "" 0 [] "a"]).remove_habit "b").1 = false ∧
    ((HabitManager.mk [Habit.mk "n" "" 0 [] "a"]).remove_habit "b").2 =
      HabitManager.mk [Habit.mk "n" "" 0 [] "a"] :=
  (claim7 (HabitManager.mk [Habit.mk "n" "" 0 [] "a"]) "b").1 (by decide)


/-- Removal keeps a sublist of the original habit list. -/
theorem removeFirst_sublist (l : List Habit) (hid : String) :
    (removeFirst l hid).2.Sublist l := by
  induction l with
  | nil => simp [removeFirst]
  | cons a t ih =>
    unfold removeFirst
    by_cases ha : a.id = hid
    · rw [if_pos ha]
      exact List.sublist_cons_self a t
    · rw [if_neg ha]
      exact ih.cons₂ a

/-- Source `update_habit` never changes any habit's id. -/
theorem updateFirst_ids (l : List Habit) (hid : String) (n2 d2 : Option String) :
    (updateFirst l hid n2 d2).2.map Habit.id = l.map Habit.id := by
  induction l with
  | nil => rfl
  | cons a t ih =>
    unfold updateFirst
    by_cases ha : a.id = hid
    · rw [if_pos ha]
      rfl
    · rw [if_neg ha]
      simp only [List.map_cons, ih]

/-- The ids after deserializing are exactly the snapshot's ids. -/
theorem from_dict_ids (m : HabitManager) (l : List HabitDict)
    (md : Option ManagerMetadata) :
    (HabitManager.from_dict m ⟨some l, md⟩).ids = l.map HabitDict.id := by
  unfold HabitManager.from_dict HabitManager.ids
  simp only [List.map_map]
  rfl

/-- C8 counterexample.  The claim fails as stated: starting from the empty
manager (which satisfies the unique-id invariant), deserializing a
snapshot whose two entries share the id "dup" produces a manager that
violates it — `from_dict` performs no deduplication. -/
theorem claim8_counterexample :
    HabitManager.UniqueIds ⟨[]⟩ ∧
    ¬ HabitManager.UniqueIds
      (HabitManager.from_dict ⟨[]⟩
        ⟨some [HabitDict.mk "a" "" 0 [] "dup", HabitDict.mk "b" "" 0 [] "dup"], none⟩) := by
  constructor
  · decide
  · decide

/-- C8 amended.  `remove_habit` and `update_habit` preserve the
unique-ids invariant; `add_habit` preserves it provided the freshly drawn
uuid differs from every existing id; and deserializing a snapshot yields
the invariant exactly when the snapshot's own ids are pairwise distinct
(in particular a snapshot without a `habits` key trivially yields it). -/
theorem claim8 (m : HabitManager) (hid nm dsc fresh : String)
    (n2 d2 : Option String) (today : Int) (data : ManagerDict) :
    (m.UniqueIds → (m.remove_habit hid).2.UniqueIds) ∧
    (m.UniqueIds → (m.update_habit hid n2 d2).2.UniqueIds) ∧
    (m.UniqueIds → fresh ∉ m.ids → (m.add_habit nm dsc today fresh).2.UniqueIds) ∧
    (∀ l, data.habits = some l →
      ((HabitManager.from_dict m data).UniqueIds ↔ (l.map HabitDict.id).Nodup)) ∧
    (data.habits = none → (HabitManager.from_dict m data).UniqueIds) := by
  refine ⟨?_, ?_, ?_, ?_, ?_⟩
  · intro hu
    have hsub := (removeFirst_sublist m.habits hid).map Habit.id
    exact hu.sublist hsub
  · intro hu
    unfold HabitManager.UniqueIds HabitManager.ids at hu ⊢
    have hproj : (m.update_habit hid n2 d2).2.habits = (updateFirst m.habits hid n2 d2).2 := rfl
    rw [hproj, updateFirst_ids]
    exact hu
  · intro hu hfresh
    unfold HabitManager.UniqueIds HabitManager.ids HabitManager.add_habit
    simp only [List.map_append, List.map_cons, List.map_nil]
    rw [List.nodup_append]
    refine ⟨hu, List.nodup_singleton _, ?_⟩
    intro x hx
    simp only [List.mem_singleton]
    intro hxf
    apply hfresh
    rw [← hxf] at hfresh ⊢
    exact hx
  · intro l hl
    have hids : (HabitManager.from_dict m data).ids = l.map HabitDict.id := by
      cases data with
      | mk hb md =>
        cases hl
        exact from_dict_ids m l md
    unfold HabitManager.UniqueIds
    rw [hids]
  · intro hnone
    have : HabitManager.from_dict m data = ⟨[]⟩ := by
      unfold HabitManager.from_dict
      rw [hnone]
    rw [this]
    decide

/-- C8 witness: removing from a two-habit manager with distinct ids keeps
the ids distinct. -/
theorem claim8_witness :
    ((HabitManager.mk [Habit.mk "n" "" 0 [] "a", Habit.mk "o" "" 0 [] "b"]).remove_habit
      "a").2.UniqueIds :=
  (claim8 (HabitManager.mk [Habit.mk "n" "" 0 [] "a", Habit.mk "o" "" 0 [] "b"])
    "a" "" "" "" none none 0 ⟨none, none⟩).1 (by decide)


/-- C9.  Every read/statistic operation leaves the habit unchanged: the
post-state of each is the receiving habit itself, with all five fields
intact, for every habit and every input date. -/
theorem claim9 (h : Habit) (today d : Int) :
    (h.is_completed_on_date_run d).2 = h ∧
    (h.is_completed_today_run today).2 = h ∧
    (h.get_current_streak_run today).2 = h ∧
    h.get_longest_streak_run.2 = h ∧
    h.get_total_completions_run.2 = h ∧
    (h.get_completion_rate_run today).2 = h :=
  ⟨rfl, rfl, rfl, rfl, rfl, rfl⟩

/-- C10.  Deserializing a snapshot without a `habits` key — for example
the empty mapping — resets the manager to an empty habit list, discarding
whatever it held before, with no failure. -/
theorem claim10 (m : HabitManager) (data : ManagerDict) (hnone : data.habits = none) :
    HabitManager.from_dict m data = ⟨[]⟩ ∧
    HabitManager.from_dict m ⟨none, none⟩ = ⟨[]⟩ := by
  constructor
  · unfold HabitManager.from_dict
    rw [hnone]
  · rfl

/-- C10 witness: a one-habit manager fed a snapshot with no `habits` key
comes back empty. -/
theorem claim10_witness :
    HabitManager.from_dict (HabitManager.mk [Habit.mk "n" "" 0 [1] "a"])
      ⟨none, some (ManagerMetadata.mk "t" 3)⟩ = ⟨[]⟩ :=
  (claim10 (HabitManager.mk [Habit.mk "n" "" 0 [1] "a"])
    ⟨none, some (ManagerMetadata.mk "t" 3)⟩ rfl).1

end HabitTracker
